import Mathlib

/-!
Formal model of `safesql.go` (Intrinsec/safesql), a static-analysis tool that
flags call sites passing non-constant SQL query strings to database sink
methods.

The Go program leans on external libraries (`go/types`, `go/ssa`,
`golang.org/x/tools/go/callgraph`, `pointer`); those are modelled at their
interface boundary:

* SSA functions are identified by natural numbers (`*ssa.Function` handles).
* An SSA value (`ssa.Value`) is abstracted to exactly the shape information
  `FindNonConstCalls` inspects: whether it is an `*ssa.Const`, or an
  `*ssa.MakeInterface` (together with the three boolean facts the code reads
  off it), or anything else.
* The call graph (after `cg.DeleteSyntheticNodes()`, a library call) is a
  function from an SSA function id to the list of its incoming edges
  (`node.In`); `cg.CreateNode` on an absent function yields a node with no
  incoming edges, i.e. the function returns `[]`.
* `token.Position` line/column are Go `int`s, modelled as `Int`; Go slice
  indexing panics out of range, modelled with `Except String` results, as is
  the explicit `panic("arg count mismatch")`.
* `strings.TrimSpace` / `HasPrefix` / `HasSuffix` / `Split(data, "\n")`
  become `goTrimSpace` / `goStartsWith` / `goEndsWith` / `splitLines`,
  implemented below on the character lists underlying `String`.

Definitions keep the Go names (`sqlPackages`, `FindNonConstCalls`,
`FindQueryMethods`, `FuncHasQuery`, `CheckIssues`, `BeginsWithComment`,
`HasIgnoreComment`, `IgnoreComment`, `ignoredFiles`).
-/

set_option maxRecDepth 10000

/-- Go: `const IgnoreComment = "//nolint:safesql"`. -/
def IgnoreComment : String := "//nolint:safesql"

/-- Go: `type sqlPackage struct { packageName string; paramNames []string; enable bool }`.
The `enable` field is mutated by `main` after import scanning; none of the
functions modelled here read it. -/
structure sqlPackage where
  packageName : String
  paramNames : List String
  enable : Bool := false
deriving DecidableEq

/-- Go: the `sqlPackages` package-level variable (its initial value; `main`
may later set `enable` on entries, which the modelled functions ignore). -/
def sqlPackages : List sqlPackage :=
  [ { packageName := "database/sql", paramNames := ["query"] },
    { packageName := "github.com/jinzhu/gorm", paramNames := ["sql", "query"] },
    { packageName := "github.com/jmoiron/sqlx", paramNames := ["query"] },
    { packageName := "github.com/jackc/pgx/v4", paramNames := ["sql", "query"] } ]

/-- Go: `var ignoredFiles = []string{"github.com/jackc/pgx/v4/pgxpool/conn.go"}`. -/
def ignoredFiles : List String :=
  ["github.com/jackc/pgx/v4/pgxpool/conn.go"]

/-- The facts `FindNonConstCalls` reads off an `*ssa.MakeInterface` value
`inter`: whether `types.IsInterface(inter.Type())` holds, whether
`inter.X.Referrers() == nil`, and whether `inter.X.Type() == types.Typ[types.String]`
(pointer identity with the basic `string` type, i.e. exactly that type). -/
structure MakeInterfaceInfo where
  typeIsInterface : Bool
  xReferrersIsNil : Bool
  xTypeIsString : Bool
deriving DecidableEq

/-- An `ssa.Value` as far as `FindNonConstCalls` distinguishes values: an
`*ssa.Const`, an `*ssa.MakeInterface` (with the inspected facts), or any
other value. -/
inductive SSAValue where
  | const : SSAValue
  | makeInterface : MakeInterfaceInfo → SSAValue
  | other : SSAValue
deriving DecidableEq

/-- One incoming call-graph edge (`callgraph.Edge`), restricted to the data
`FindNonConstCalls` reads: `edge.Site.Parent()` (an SSA function id),
`edge.Caller.Func.Pkg.Pkg.Path()`, `edge.Site.Common().Args`, and the
identity of the call instruction `edge.Site` (a `ssa.CallInstruction`
handle; distinct instructions get distinct ids, but one instruction can
appear in several edges). -/
structure Edge where
  siteParent : Nat
  callerPkgPath : String
  args : List SSAValue
  site : Nat
deriving DecidableEq

/-- A call graph after `DeleteSyntheticNodes`: for each SSA function id, the
list of incoming edges of its node (`cg.CreateNode(f).In`; `[]` when the
node is absent). -/
abbrev CallGraph := Nat → List Edge

/-- Go: `type QueryMethod struct { Func *types.Func; SSA *ssa.Function; ArgCount int; Param int }`.
`Func` is represented by the declaring type's name and the method name;
`SSA` by the SSA function id. -/
structure QueryMethod where
  funcTypeName : String
  funcName : String
  SSA : Nat
  ArgCount : Nat
  Param : Nat
deriving DecidableEq

/-- The caller-package test of `FindNonConstCalls`: Go loops over all of
`sqlPackages` (enabled or not) comparing `pkg.packageName` with
`edge.Caller.Func.Pkg.Pkg.Path()`. -/
def isInternalSQLPkg (path : String) : Bool :=
  sqlPackages.any fun pkg => pkg.packageName == path

/-- Receiver adjustment in `FindNonConstCalls`: Go
`if len(args) == m.ArgCount+1 { args = args[1:] } else if len(args) != m.ArgCount { panic("arg count mismatch") }`. -/
def adjustArgs (argCount : Nat) (args : List SSAValue) : Except String (List SSAValue) :=
  if args.length = argCount + 1 then .ok (args.drop 1)
  else if args.length ≠ argCount then .error "arg count mismatch"
  else .ok args

/-- Go `v := args[m.Param]` after receiver adjustment; slice indexing out of
range is a runtime panic, modelled as an error. -/
def extractValue (m : QueryMethod) (e : Edge) : Except String SSAValue :=
  match adjustArgs m.ArgCount e.args with
  | .error err => .error err
  | .ok args =>
    match args[m.Param]? with
    | some v => .ok v
    | none => .error "index out of range"

/-- The per-value classification at the bottom of `FindNonConstCalls`
(`true` = the call site is appended to `bad`): a non-`Const` value is bad,
except a `MakeInterface` whose type is an interface and whose operand either
has `nil` referrers or is not exactly the basic `string` type, which is
skipped. -/
def evalEdgeBad : SSAValue → Bool
  | .const => false
  | .makeInterface info =>
    if info.typeIsInterface then
      if info.xReferrersIsNil || !info.xTypeIsString then false else true
    else true
  | .other => true

/-- The edge loop body of `FindNonConstCalls` for one sink `m`, over the
listed incoming edges, accumulating flagged call sites in order; a panic
(`arg count mismatch` or index out of range) aborts the whole run. -/
def processEdges (okFuncs : List Nat) (m : QueryMethod) : List Edge → Except String (List Nat)
  | [] => .ok []
  | e :: rest =>
    if okFuncs.contains e.siteParent then processEdges okFuncs m rest
    else if isInternalSQLPkg e.callerPkgPath then processEdges okFuncs m rest
    else
      match extractValue m e with
      | .error err => .error err
      | .ok v =>
        if evalEdgeBad v then
          match processEdges okFuncs m rest with
          | .error err => .error err
          | .ok l => .ok (e.site :: l)
        else processEdges okFuncs m rest

/-- The outer loop of `FindNonConstCalls` over the sinks `qms`, concatenating
each sink's flagged sites. -/
def findNonConstCallsAux (cg : CallGraph) (okFuncs : List Nat) :
    List QueryMethod → Except String (List Nat)
  | [] => .ok []
  | m :: rest =>
    match processEdges okFuncs m (cg m.SSA) with
    | .error err => .error err
    | .ok b1 =>
      match findNonConstCallsAux cg okFuncs rest with
      | .error err => .error err
      | .ok b2 => .ok (b1 ++ b2)

/-- Go `FindNonConstCalls(cg *callgraph.Graph, qms []*QueryMethod) []ssa.CallInstruction`:
after `cg.DeleteSyntheticNodes()` (already reflected in the modelled graph),
whitelist the sink functions themselves (`okFuncs`), then walk each sink
node's incoming edges collecting the call sites whose query argument is not
a compile-time constant. `panic` is modelled as `.error`. -/
def FindNonConstCalls (cg : CallGraph) (qms : List QueryMethod) : Except String (List Nat) :=
  findNonConstCallsAux cg (qms.map (·.SSA)) qms

/-- Go `token.Position`, restricted to the fields `CheckIssues` reads
(`Filename`, `Line`, `Column`); `Line`/`Column` are Go `int`s. -/
structure Position where
  filename : String
  line : Int
  column : Int
deriving DecidableEq

/-- Go: `type Issue struct { statement token.Position; ignored bool }`. -/
structure Issue where
  statement : Position
  ignored : Bool
deriving DecidableEq

/-- Go `unicode.IsSpace` on a rune: the Unicode `White_Space` property
(ASCII fast path `'\t' '\n' '\v' '\f' '\r' ' '` plus the non-ASCII space
code points). -/
def goIsSpace (c : Char) : Bool :=
  c == ' ' || c == '\t' || c == '\n' || c == '\u000B' || c == '\u000C' || c == '\r' ||
  c == '\u0085' || c == '\u00A0' || c == '\u1680' ||
  ('\u2000' ≤ c && c ≤ '\u200A') ||
  c == '\u2028' || c == '\u2029' || c == '\u202F' || c == '\u205F' || c == '\u3000'

/-- Go `strings.TrimSpace(s)`: drop leading and trailing white space. -/
def goTrimSpace (s : String) : String :=
  ⟨(((s.data.dropWhile goIsSpace).reverse.dropWhile goIsSpace).reverse)⟩

/-- Go `strings.HasPrefix(s, pre)`. -/
def goStartsWith (s pre : String) : Bool :=
  List.isPrefixOf pre.data s.data

/-- Go `strings.HasSuffix(s, suf)`. -/
def goEndsWith (s suf : String) : Bool :=
  List.isSuffixOf suf.data s.data

/-- Go: `func BeginsWithComment(line string) bool { return strings.HasPrefix(strings.TrimSpace(line), IgnoreComment) }`. -/
def BeginsWithComment (line : String) : Bool :=
  goStartsWith (goTrimSpace line) IgnoreComment

/-- Go: `func HasIgnoreComment(line string) bool { return strings.HasSuffix(strings.TrimSpace(line), IgnoreComment) }`. -/
def HasIgnoreComment (line : String) : Bool :=
  goEndsWith (goTrimSpace line) IgnoreComment

/-- Character scan for Go `strings.Split(data, "\n")`: cut at every newline,
keeping empty fields (the accumulator holds the current field reversed). -/
def splitLinesAux : List Char → List Char → List String
  | [], acc => [⟨acc.reverse⟩]
  | c :: rest, acc =>
    if c == '\n' then ⟨acc.reverse⟩ :: splitLinesAux rest []
    else splitLinesAux rest (c :: acc)

/-- Go: `strings.Split(string(data), "\n")` applied to a file's contents. -/
def splitLines (data : String) : List String :=
  splitLinesAux data.data []

/-- Total lookup of slice index `i` (a Go `int`) in a list: `some` when in
range, `none` otherwise. -/
def lineAt (fileLines : List String) (i : Int) : Option String :=
  if 0 ≤ i then fileLines[i.toNat]? else none

/-- Go slice indexing `fileLines[i]`: panics (modelled as `.error`) when `i`
is out of range. -/
def getLine (fileLines : List String) (i : Int) : Except String String :=
  match lineAt fileLines i with
  | some s => .ok s
  | none => .error "index out of range"

/-- The ignored-files scan at the top of `CheckIssues`'s per-file loop:
`fileIsIgnored` is set when the file path ends with an entry of
`ignoredFiles`. -/
def fileIsIgnored (file : String) : Bool :=
  ignoredFiles.any fun ignoredFile => goEndsWith file ignoredFile

/-- The per-finding body of `CheckIssues`'s inner loop, computing the
`ignored` flag for one position: first the line before the statement
(`line.Line - 2`, consulted only when non-negative, short-circuiting Go
`&&`), which forces `ignored = true` when it begins with the comment;
otherwise the statement's own line `line.Line - 1` is read and the flag is
`HasIgnoreComment(...) || fileIsIgnored`. Out-of-range indexing panics. -/
def classifyPos (fileLines : List String) (fileIgn : Bool) (p : Position) : Except String Bool :=
  let potentialCommentLine : Int := p.line - 2
  if 0 ≤ potentialCommentLine then
    match getLine fileLines potentialCommentLine with
    | .error err => .error err
    | .ok prev =>
      if BeginsWithComment prev then .ok true
      else
        match getLine fileLines (p.line - 1) with
        | .error err => .error err
        | .ok cur => .ok (HasIgnoreComment cur || fileIgn)
  else
    match getLine fileLines (p.line - 1) with
    | .error err => .error err
    | .ok cur => .ok (HasIgnoreComment cur || fileIgn)

/-- The inner loop of `CheckIssues` over one file's findings (already sorted),
appending one `Issue` per position in order. -/
def checkLinesInFile (fileLines : List String) (fileIgn : Bool) :
    List Position → Except String (List Issue)
  | [] => .ok []
  | p :: rest =>
    match classifyPos fileLines fileIgn p with
    | .error err => .error err
    | .ok b =>
      match checkLinesInFile fileLines fileIgn rest with
      | .error err => .error err
      | .ok is => .ok (⟨p, b⟩ :: is)

/-- Insertion step for sorting a file's findings by line number. -/
def insertByLine (p : Position) : List Position → List Position
  | [] => [p]
  | q :: rest => if p.line < q.line then p :: q :: rest else q :: insertByLine p rest

/-- Go `sort.Slice(linesInFile, ...Line < ...Line)`: an (unstable) sort by
ascending line number, modelled as insertion sort — one of the orders the
unstable Go sort may produce. -/
def sortByLine : List Position → List Position
  | [] => []
  | p :: rest => insertByLine p (sortByLine rest)

/-- Distinct keys of the Go map `files` built by `CheckIssues`, in first
appearance order (Go map iteration order is unspecified; the per-issue
`ignored` flag does not depend on it). -/
def dedupKeysAux (seen : List String) : List String → List String
  | [] => []
  | f :: rest =>
    if seen.contains f then dedupKeysAux seen rest
    else f :: dedupKeysAux (f :: seen) rest

/-- The body of `CheckIssues`'s per-file loop for one file: compute
`fileIsIgnored`, read and split the file (the read itself is the external
`ioutil.ReadFile`; `fs` supplies each file's contents), sort that file's
findings by line, and classify each. -/
def processFile (fs : String → String) (lines : List Position) (file : String) :
    Except String (List Issue) :=
  checkLinesInFile (splitLines (fs file)) (fileIsIgnored file)
    (sortByLine (lines.filter fun p => p.filename == file))

/-- The outer loop of `CheckIssues` over the grouped files, concatenating
each file's issues; the first error aborts. -/
def checkFiles (fs : String → String) (lines : List Position) :
    List String → Except String (List Issue)
  | [] => .ok []
  | f :: rest =>
    match processFile fs lines f with
    | .error err => .error err
    | .ok is1 =>
      match checkFiles fs lines rest with
      | .error err => .error err
      | .ok is2 => .ok (is1 ++ is2)

/-- Go `CheckIssues(lines []token.Position) ([]Issue, error)`: group the
findings by filename, and per file mark each finding ignored according to
the comment on the preceding line, the comment on its own line, or the
static ignored-files list. The file-content oracle `fs` stands for
`ioutil.ReadFile` (reads are assumed to succeed; a read failure is an
external I/O error outside this model). -/
def CheckIssues (fs : String → String) (lines : List Position) :
    Except String (List Issue) :=
  checkFiles fs lines (dedupKeysAux [] (lines.map (·.filename)))

/-- One method of a named type as `FindQueryMethods` sees it: its name,
whether it is exported (`types.Func.Exported()`), its signature's parameter
names in declaration order (`types.Signature.Params()`, which excludes the
receiver), and its SSA function id (`ssa.Program.FuncValue`). -/
structure MethodObj where
  name : String
  exported : Bool
  params : List String
  ssa : Nat
deriving DecidableEq

/-- One object of the package scope as `FindQueryMethods` sees it
(`scope.Lookup(name)` for `name ∈ scope.Names()`): its name, whether it is
exported, whether it is a `*types.TypeName`, and — when it is — the methods
of its named type (`types.Named.Method(i)` for `i < NumMethods()`). -/
structure ScopeObj where
  name : String
  exported : Bool
  isTypeName : Bool
  methods : List MethodObj
deriving DecidableEq

/-- The parameter scan of `FuncHasQuery`, carrying the current index: Go
iterates positions `i` in order and returns the first `i` whose parameter
name equals one of `sqlPackages.paramNames`. -/
def funcHasQueryAux (paramNames : List String) (i : Nat) : List String → Option Nat
  | [] => none
  | p :: rest =>
    if paramNames.contains p then some i else funcHasQueryAux paramNames (i + 1) rest

/-- Go `FuncHasQuery(sqlPackages sqlPackage, s *types.Signature) (offset int, ok bool)`:
the offset of the first parameter whose name matches one of the package's
sensitive names (`none` models `(0, false)`). Matching is by parameter name
only; the parameter's type is never consulted. -/
def FuncHasQuery (pkg : sqlPackage) (params : List String) : Option Nat :=
  funcHasQueryAux pkg.paramNames 0 params

/-- The method loop of `FindQueryMethods` for one exported named type:
exported methods whose signature matches `FuncHasQuery` become
`QueryMethod`s with `ArgCount = s.Params().Len()` (receiver excluded) and
`Param` the matched offset. -/
def findQueryMethodsOfType (pkg : sqlPackage) (typeName : String) :
    List MethodObj → List QueryMethod
  | [] => []
  | m :: rest =>
    if m.exported then
      match FuncHasQuery pkg m.params with
      | some num =>
        ⟨typeName, m.name, m.ssa, m.params.length, num⟩ :: findQueryMethodsOfType pkg typeName rest
      | none => findQueryMethodsOfType pkg typeName rest
    else findQueryMethodsOfType pkg typeName rest

/-- Go `FindQueryMethods(sqlPackages sqlPackage, sql *types.Package, ssa *ssa.Program) []*QueryMethod`:
scan the package scope's objects in order, keeping exported `TypeName`s, and
collect the query methods of each. -/
def FindQueryMethods (pkg : sqlPackage) (scope : List ScopeObj) : List QueryMethod :=
  match scope with
  | [] => []
  | o :: rest =>
    if o.exported then
      if o.isTypeName then
        findQueryMethodsOfType pkg o.name o.methods ++ FindQueryMethods pkg rest
      else FindQueryMethods pkg rest
    else FindQueryMethods pkg rest

example : evalEdgeBad .const = false := by decide

example : evalEdgeBad (.makeInterface ⟨true, true, true⟩) = false := by decide

example : evalEdgeBad (.makeInterface ⟨true, false, true⟩) = true := by decide

example : isInternalSQLPkg "github.com/jackc/pgx/v4/pgxpool" = false := by decide

example : isInternalSQLPkg "database/sql" = true := by decide

example : BeginsWithComment "   //nolint:safesql extra" = true := by decide

example : HasIgnoreComment "x := q // bad" = false := by decide

example : HasIgnoreComment "db.Query(q) //nolint:safesql  " = true := by decide

example : fileIsIgnored "/home/u/go/src/github.com/jackc/pgx/v4/pgxpool/conn.go" = true := by decide

example :
    CheckIssues (fun _ => "a\n//nolint:safesql\nbad line\nother") [⟨"f.go", 3, 1⟩] =
      .ok [⟨⟨"f.go", 3, 1⟩, true⟩] := rfl

example :
    CheckIssues (fun _ => "a\nb\nbad line\nother") [⟨"f.go", 3, 1⟩] =
      .ok [⟨⟨"f.go", 3, 1⟩, false⟩] := rfl

example :
    FuncHasQuery { packageName := "database/sql", paramNames := ["query"] } ["ctx", "query", "args"] = some 1 := by decide

/-! Helper lemmas about `processEdges` and `findNonConstCallsAux`. -/

/-- Unfolding equation for `processEdges` on a nonempty edge list. -/
theorem processEdges_cons_eq (okFuncs : List Nat) (m : QueryMethod) (e : Edge)
    (rest : List Edge) :
    processEdges okFuncs m (e :: rest) =
      if okFuncs.contains e.siteParent then processEdges okFuncs m rest
      else if isInternalSQLPkg e.callerPkgPath then processEdges okFuncs m rest
      else
        match extractValue m e with
        | .error err => .error err
        | .ok v =>
          if evalEdgeBad v then
            match processEdges okFuncs m rest with
            | .error err => .error err
            | .ok l => .ok (e.site :: l)
          else processEdges okFuncs m rest := rfl

/-- An edge skipped by either whitelist test contributes nothing. -/
theorem processEdges_cons_skip (okFuncs : List Nat) (m : QueryMethod) (e : Edge)
    (rest : List Edge)
    (h : okFuncs.contains e.siteParent = true ∨ isInternalSQLPkg e.callerPkgPath = true) :
    processEdges okFuncs m (e :: rest) = processEdges okFuncs m rest := by
  rw [processEdges_cons_eq]
  rcases h with h | h
  · simp only [h]
    simp
  · cases hOk : okFuncs.contains e.siteParent with
    | true => simp only [hOk]; simp
    | false => simp only [hOk, h]; simp

/-- An evaluated edge with a safely-classified value contributes nothing. -/
theorem processEdges_cons_safe (okFuncs : List Nat) (m : QueryMethod) (e : Edge)
    (rest : List Edge) (v : SSAValue)
    (hx : extractValue m e = .ok v) (hb : evalEdgeBad v = false) :
    processEdges okFuncs m (e :: rest) = processEdges okFuncs m rest := by
  rw [processEdges_cons_eq]
  cases hOk : okFuncs.contains e.siteParent with
  | true => simp only [hOk]; simp
  | false =>
    cases hInt : isInternalSQLPkg e.callerPkgPath with
    | true => simp only [hOk, hInt]; simp
    | false => simp only [hOk, hInt, hx, hb]; simp

/-- An evaluated edge with a badly-classified value prepends its site. -/
theorem processEdges_cons_bad (okFuncs : List Nat) (m : QueryMethod) (e : Edge)
    (rest : List Edge) (v : SSAValue)
    (hOk : okFuncs.contains e.siteParent = false)
    (hInt : isInternalSQLPkg e.callerPkgPath = false)
    (hx : extractValue m e = .ok v) (hb : evalEdgeBad v = true) :
    processEdges okFuncs m (e :: rest) =
      (processEdges okFuncs m rest).map (e.site :: ·) := by
  rw [processEdges_cons_eq]
  simp only [hOk, hInt, hx, hb]
  cases hRest : processEdges okFuncs m rest with
  | error err => simp [Except.map]
  | ok l => simp [Except.map]

/-- An evaluated edge whose extraction panics fails the edge loop at once. -/
theorem processEdges_cons_panic (okFuncs : List Nat) (m : QueryMethod) (e : Edge)
    (rest : List Edge) (err : String)
    (hOk : okFuncs.contains e.siteParent = false)
    (hInt : isInternalSQLPkg e.callerPkgPath = false)
    (hx : extractValue m e = .error err) :
    processEdges okFuncs m (e :: rest) = .error err := by
  rw [processEdges_cons_eq]
  simp only [hOk, hInt, hx]
  simp

/-- Soundness of the edge loop: a listed, unskipped edge whose extracted value
is classified bad has its site in a successful result. -/
theorem processEdges_mem_of (okFuncs : List Nat) (m : QueryMethod) :
    ∀ (edges : List Edge) (l : List Nat) (e : Edge) (v : SSAValue),
      processEdges okFuncs m edges = .ok l → e ∈ edges →
      okFuncs.contains e.siteParent = false →
      isInternalSQLPkg e.callerPkgPath = false →
      extractValue m e = .ok v → evalEdgeBad v = true → e.site ∈ l := by
  intro edges
  induction edges with
  | nil => intro l e v _ he; cases he
  | cons hd tl ih =>
    intro l e v hp he hOk hInt hx hb
    rcases List.mem_cons.mp he with rfl | he
    · rw [processEdges_cons_bad okFuncs m e tl v hOk hInt hx hb] at hp
      cases hRest : processEdges okFuncs m tl with
      | error err => rw [hRest] at hp; cases hp
      | ok l' =>
        rw [hRest] at hp
        simp only [Except.map] at hp
        cases hp
        exact List.mem_cons_self _ _
    · cases hOk' : okFuncs.contains hd.siteParent with
      | true =>
        rw [processEdges_cons_skip okFuncs m hd tl (Or.inl hOk')] at hp
        exact ih l e v hp he hOk hInt hx hb
      | false =>
        cases hInt' : isInternalSQLPkg hd.callerPkgPath with
        | true =>
          rw [processEdges_cons_skip okFuncs m hd tl (Or.inr hInt')] at hp
          exact ih l e v hp he hOk hInt hx hb
        | false =>
          cases hx' : extractValue m hd with
          | error err =>
            rw [processEdges_cons_panic okFuncs m hd tl err hOk' hInt' hx'] at hp
            cases hp
          | ok v' =>
            cases hb' : evalEdgeBad v' with
            | false =>
              rw [processEdges_cons_safe okFuncs m hd tl v' hx' hb'] at hp
              exact ih l e v hp he hOk hInt hx hb
            | true =>
              rw [processEdges_cons_bad okFuncs m hd tl v' hOk' hInt' hx' hb'] at hp
              cases hRest : processEdges okFuncs m tl with
              | error err => rw [hRest] at hp; cases hp
              | ok l' =>
                rw [hRest] at hp
                simp only [Except.map] at hp
                cases hp
                exact List.mem_cons_of_mem _ (ih l' e v hRest he hOk hInt hx hb)

/-- Completeness of the edge loop: every site of a successful result comes
from a listed, unskipped edge whose extracted value is classified bad. -/
theorem processEdges_ok_mem (okFuncs : List Nat) (m : QueryMethod) :
    ∀ (edges : List Edge) (l : List Nat) (s : Nat),
      processEdges okFuncs m edges = .ok l → s ∈ l →
      ∃ e, e ∈ edges ∧ e.site = s ∧
        okFuncs.contains e.siteParent = false ∧
        isInternalSQLPkg e.callerPkgPath = false ∧
        ∃ v, extractValue m e = .ok v ∧ evalEdgeBad v = true := by
  intro edges
  induction edges with
  | nil =>
    intro l s hp hs
    cases hp
    cases hs
  | cons hd tl ih =>
    intro l s hp hs
    cases hOk : okFuncs.contains hd.siteParent with
    | true =>
      rw [processEdges_cons_skip okFuncs m hd tl (Or.inl hOk)] at hp
      obtain ⟨e, he, rest⟩ := ih l s hp hs
      exact ⟨e, List.mem_cons_of_mem _ he, rest⟩
    | false =>
      cases hInt : isInternalSQLPkg hd.callerPkgPath with
      | true =>
        rw [processEdges_cons_skip okFuncs m hd tl (Or.inr hInt)] at hp
        obtain ⟨e, he, rest⟩ := ih l s hp hs
        exact ⟨e, List.mem_cons_of_mem _ he, rest⟩
      | false =>
        cases hx : extractValue m hd with
        | error err =>
          rw [processEdges_cons_panic okFuncs m hd tl err hOk hInt hx] at hp
          cases hp
        | ok v =>
          cases hb : evalEdgeBad v with
          | false =>
            rw [processEdges_cons_safe okFuncs m hd tl v hx hb] at hp
            obtain ⟨e, he, rest⟩ := ih l s hp hs
            exact ⟨e, List.mem_cons_of_mem _ he, rest⟩
          | true =>
            rw [processEdges_cons_bad okFuncs m hd tl v hOk hInt hx hb] at hp
            cases hRest : processEdges okFuncs m tl with
            | error err => rw [hRest] at hp; cases hp
            | ok l' =>
              rw [hRest] at hp
              simp only [Except.map] at hp
              cases hp
              rcases List.mem_cons.mp hs with rfl | hs'
              · exact ⟨hd, List.mem_cons_self _ _, rfl, hOk, hInt, v, hx, hb⟩
              · obtain ⟨e, he, rest⟩ := ih l' s hRest hs'
                exact ⟨e, List.mem_cons_of_mem _ he, rest⟩

/-- A listed, unskipped edge whose extraction panics makes the edge loop
fail. -/
theorem processEdges_error_of_extract (okFuncs : List Nat) (m : QueryMethod) :
    ∀ (edges : List Edge) (e : Edge) (err : String),
      e ∈ edges →
      okFuncs.contains e.siteParent = false →
      isInternalSQLPkg e.callerPkgPath = false →
      extractValue m e = .error err →
      ∃ s, processEdges okFuncs m edges = .error s := by
  intro edges
  induction edges with
  | nil => intro e err he; cases he
  | cons hd tl ih =>
    intro e err he hOk hInt hx
    rcases List.mem_cons.mp he with rfl | he
    · exact ⟨err, processEdges_cons_panic okFuncs m e tl err hOk hInt hx⟩
    · cases hOk' : okFuncs.contains hd.siteParent with
      | true =>
        obtain ⟨s, hs⟩ := ih e err he hOk hInt hx
        exact ⟨s, by rw [processEdges_cons_skip okFuncs m hd tl (Or.inl hOk')]; exact hs⟩
      | false =>
        cases hInt' : isInternalSQLPkg hd.callerPkgPath with
        | true =>
          obtain ⟨s, hs⟩ := ih e err he hOk hInt hx
          exact ⟨s, by rw [processEdges_cons_skip okFuncs m hd tl (Or.inr hInt')]; exact hs⟩
        | false =>
          cases hx' : extractValue m hd with
          | error err' =>
            exact ⟨err', processEdges_cons_panic okFuncs m hd tl err' hOk' hInt' hx'⟩
          | ok v' =>
            obtain ⟨s, hs⟩ := ih e err he hOk hInt hx
            cases hb' : evalEdgeBad v' with
            | false =>
              exact ⟨s, by rw [processEdges_cons_safe okFuncs m hd tl v' hx' hb']; exact hs⟩
            | true =>
              refine ⟨s, ?_⟩
              rw [processEdges_cons_bad okFuncs m hd tl v' hOk' hInt' hx' hb', hs]
              rfl

/-- A successful outer loop is built from successful edge loops whose results
all land in the final list. -/
theorem findAux_ok_processEdges (cg : CallGraph) (okFuncs : List Nat) :
    ∀ (qms : List QueryMethod) (l : List Nat) (m : QueryMethod),
      findNonConstCallsAux cg okFuncs qms = .ok l → m ∈ qms →
      ∃ lm, processEdges okFuncs m (cg m.SSA) = .ok lm ∧ ∀ s ∈ lm, s ∈ l := by
  intro qms
  induction qms with
  | nil => intro l m _ hm; cases hm
  | cons hd tl ih =>
    intro l m hp hm
    cases h1 : processEdges okFuncs hd (cg hd.SSA) with
    | error err => simp [findNonConstCallsAux, h1] at hp
    | ok b1 =>
      cases h2 : findNonConstCallsAux cg okFuncs tl with
      | error err => simp [findNonConstCallsAux, h1, h2] at hp
      | ok b2 =>
        have hl : l = b1 ++ b2 := by
          simp [findNonConstCallsAux, h1, h2] at hp
          exact hp.symm
        subst hl
        rcases List.mem_cons.mp hm with rfl | hm'
        · exact ⟨b1, h1, fun s hs => List.mem_append_left _ hs⟩
        · obtain ⟨lm, hlm, hsub⟩ := ih b2 m h2 hm'
          exact ⟨lm, hlm, fun s hs => List.mem_append_right _ (hsub s hs)⟩

/-- Every site of a successful outer loop comes from some sink's successful
edge loop. -/
theorem findAux_ok_mem (cg : CallGraph) (okFuncs : List Nat) :
    ∀ (qms : List QueryMethod) (l : List Nat) (s : Nat),
      findNonConstCallsAux cg okFuncs qms = .ok l → s ∈ l →
      ∃ m, m ∈ qms ∧ ∃ lm, processEdges okFuncs m (cg m.SSA) = .ok lm ∧ s ∈ lm := by
  intro qms
  induction qms with
  | nil =>
    intro l s hp hs
    cases hp
    cases hs
  | cons hd tl ih =>
    intro l s hp hs
    cases h1 : processEdges okFuncs hd (cg hd.SSA) with
    | error err => simp [findNonConstCallsAux, h1] at hp
    | ok b1 =>
      cases h2 : findNonConstCallsAux cg okFuncs tl with
      | error err => simp [findNonConstCallsAux, h1, h2] at hp
      | ok b2 =>
        have hl : l = b1 ++ b2 := by
          simp [findNonConstCallsAux, h1, h2] at hp
          exact hp.symm
        subst hl
        rcases List.mem_append.mp hs with hs1 | hs2
        · exact ⟨hd, List.mem_cons_self _ _, b1, h1, hs1⟩
        · obtain ⟨m, hm, rest⟩ := ih b2 s h2 hs2
          exact ⟨m, List.mem_cons_of_mem _ hm, rest⟩

/-- A failing edge loop for a listed sink makes the outer loop fail. -/
theorem findAux_error (cg : CallGraph) (okFuncs : List Nat) :
    ∀ (qms : List QueryMethod) (m : QueryMethod) (err : String),
      m ∈ qms → processEdges okFuncs m (cg m.SSA) = .error err →
      ∃ s, findNonConstCallsAux cg okFuncs qms = .error s := by
  intro qms
  induction qms with
  | nil => intro m err hm; cases hm
  | cons hd tl ih =>
    intro m err hm hp
    rcases List.mem_cons.mp hm with rfl | hm'
    · exact ⟨err, by simp [findNonConstCallsAux, hp]⟩
    · cases h1 : processEdges okFuncs hd (cg hd.SSA) with
      | error err' => exact ⟨err', by simp [findNonConstCallsAux, h1]⟩
      | ok b1 =>
        obtain ⟨s, hs⟩ := ih m err hm' hp
        exact ⟨s, by simp [findNonConstCallsAux, h1, hs]⟩

/-- C1: for every call edge into a resolved sink's call-graph node whose
argument at the sink's parameter index is a non-literal runtime value (not a
compile-time constant and not covered by the interface-boxing exception,
i.e. `evalEdgeBad` classifies it bad), `FindNonConstCalls` includes that call
site in its returned set, unless the caller function (`edge.Site.Parent()`)
is itself one of the resolved sink functions or the caller's declaring
package path equals one of the tracked database-access package
identifiers. -/
theorem claim_C1_nonconst_flagged (cg : CallGraph) (qms : List QueryMethod)
    (l : List Nat) (m : QueryMethod) (e : Edge) (v : SSAValue)
    (hrun : FindNonConstCalls cg qms = .ok l)
    (hm : m ∈ qms) (he : e ∈ cg m.SSA)
    (hOk : (qms.map (·.SSA)).contains e.siteParent = false)
    (hInt : isInternalSQLPkg e.callerPkgPath = false)
    (hx : extractValue m e = .ok v) (hb : evalEdgeBad v = true) :
    e.site ∈ l := by
  have hrun' : findNonConstCallsAux cg (qms.map (·.SSA)) qms = Except.ok l := hrun
  obtain ⟨lm, hlm, hsub⟩ := findAux_ok_processEdges cg (qms.map (·.SSA)) qms l m hrun' hm
  exact hsub _ (processEdges_mem_of _ m (cg m.SSA) lm e v hlm he hOk hInt hx hb)

/-- Witness for C1 at a one-edge graph: a `main`-package caller passing a
non-constant value to the sink is flagged. -/
theorem claim_C1_witness :
    (Edge.mk 10 "main" [SSAValue.other] 42).site ∈ [42] :=
  claim_C1_nonconst_flagged
    (fun n => if n = 1 then [⟨10, "main", [SSAValue.other], 42⟩] else [])
    [⟨"DB", "Query", 1, 1, 0⟩] [42] ⟨"DB", "Query", 1, 1, 0⟩
    ⟨10, "main", [SSAValue.other], 42⟩ SSAValue.other
    rfl (by decide) (by decide) (by decide) (by decide) rfl rfl

/-- Counterexample to C2 as stated: one call instruction (site `100`) is an
edge into two sinks of identical argument shape; at sink `A`'s parameter
index `0` the argument is a compile-time constant, yet the returned set does
contain that call site, because the edge of the same instruction into sink
`B` (parameter index `1`, a non-constant) is flagged. -/
theorem claim_C2_counterexample :
    FindNonConstCalls
        (fun n =>
          if n = 1 then [⟨10, "main", [SSAValue.const, SSAValue.other], 100⟩]
          else if n = 2 then [⟨10, "main", [SSAValue.const, SSAValue.other], 100⟩]
          else [])
        [⟨"A", "Query", 1, 2, 0⟩, ⟨"B", "Exec", 2, 2, 1⟩] = .ok [100] ∧
    (⟨"A", "Query", 1, 2, 0⟩ : QueryMethod) ∈
      [(⟨"A", "Query", 1, 2, 0⟩ : QueryMethod), ⟨"B", "Exec", 2, 2, 1⟩] ∧
    (⟨10, "main", [SSAValue.const, SSAValue.other], 100⟩ : Edge) ∈
      (fun n =>
          if n = 1 then [(⟨10, "main", [SSAValue.const, SSAValue.other], 100⟩ : Edge)]
          else if n = 2 then [⟨10, "main", [SSAValue.const, SSAValue.other], 100⟩]
          else []) ((⟨"A", "Query", 1, 2, 0⟩ : QueryMethod).SSA) ∧
    extractValue ⟨"A", "Query", 1, 2, 0⟩ ⟨10, "main", [SSAValue.const, SSAValue.other], 100⟩ =
      .ok SSAValue.const ∧
    (⟨10, "main", [SSAValue.const, SSAValue.other], 100⟩ : Edge).site ∈ [100] :=
  ⟨rfl, by decide, by decide, rfl, by decide⟩

/-- C2 amended: a call edge whose argument at the sink's parameter index is a
compile-time constant never itself puts its call site into the returned set —
every returned site is witnessed by some edge whose extracted argument is
classified non-constant (`evalEdgeBad`); the same call instruction may still
be returned via a different such edge, possibly into a different sink. -/
theorem claim_C2_const_skipped (cg : CallGraph) (qms : List QueryMethod)
    (l : List Nat) (s : Nat)
    (hrun : FindNonConstCalls cg qms = .ok l) (hs : s ∈ l) :
    ∃ m, m ∈ qms ∧ ∃ e, e ∈ cg m.SSA ∧ e.site = s ∧
      (qms.map (·.SSA)).contains e.siteParent = false ∧
      isInternalSQLPkg e.callerPkgPath = false ∧
      ∃ v, extractValue m e = .ok v ∧ evalEdgeBad v = true := by
  have hrun' : findNonConstCallsAux cg (qms.map (·.SSA)) qms = Except.ok l := hrun
  obtain ⟨m, hm, lm, hlm, hsm⟩ := findAux_ok_mem cg (qms.map (·.SSA)) qms l s hrun' hs
  obtain ⟨e, he, rest⟩ := processEdges_ok_mem _ m (cg m.SSA) lm s hlm hsm
  exact ⟨m, hm, e, he, rest⟩

/-- Witness for the amended C2: the flagged site of a one-edge run is indeed
witnessed by a bad edge. -/
theorem claim_C2_witness :
    ∃ m, m ∈ [(⟨"DB", "Query", 1, 1, 0⟩ : QueryMethod)] ∧
      ∃ e, e ∈ (fun n => if n = 1 then [(⟨10, "main", [SSAValue.other], 42⟩ : Edge)] else []) m.SSA ∧
        e.site = 42 ∧
        ([(⟨"DB", "Query", 1, 1, 0⟩ : QueryMethod)].map (·.SSA)).contains e.siteParent = false ∧
        isInternalSQLPkg e.callerPkgPath = false ∧
        ∃ v, extractValue m e = .ok v ∧ evalEdgeBad v = true :=
  claim_C2_const_skipped
    (fun n => if n = 1 then [⟨10, "main", [SSAValue.other], 42⟩] else [])
    [⟨"DB", "Query", 1, 1, 0⟩] [42] 42 rfl (by decide)

/-- C3: an evaluated non-constant argument that is an interface-wrapped value
(a `MakeInterface` whose type is an interface) is treated as safe exactly
when the wrapped value has `nil` referrers or its static type is not exactly
`string`; every other non-constant value is classified unsafe; and on an
evaluated edge the safe classification skips the site while the unsafe one
records it. -/
theorem claim_C3_interface_exception :
    (∀ info : MakeInterfaceInfo, info.typeIsInterface = true →
        (evalEdgeBad (.makeInterface info) = false ↔
          (info.xReferrersIsNil = true ∨ info.xTypeIsString = false))) ∧
    (∀ v : SSAValue, v ≠ .const →
        (∀ info, v = .makeInterface info →
          ¬(info.typeIsInterface = true ∧
            (info.xReferrersIsNil = true ∨ info.xTypeIsString = false))) →
        evalEdgeBad v = true) ∧
    (∀ (okFuncs : List Nat) (m : QueryMethod) (e : Edge) (rest : List Edge) (v : SSAValue),
        okFuncs.contains e.siteParent = false →
        isInternalSQLPkg e.callerPkgPath = false →
        extractValue m e = .ok v →
        ((evalEdgeBad v = false →
            processEdges okFuncs m (e :: rest) = processEdges okFuncs m rest) ∧
         (evalEdgeBad v = true →
            processEdges okFuncs m (e :: rest) =
              (processEdges okFuncs m rest).map (e.site :: ·)))) := by
  refine ⟨?_, ?_, ?_⟩
  · rintro ⟨ti, rn, ts⟩ h
    simp only at h
    subst h
    cases rn <;> cases ts <;> simp [evalEdgeBad]
  · intro v hne hnot
    match v with
    | .const => exact absurd rfl hne
    | .other => rfl
    | .makeInterface info =>
      have h := hnot info rfl
      rcases info with ⟨ti, rn, ts⟩
      cases ti <;> cases rn <;> cases ts <;> simp_all [evalEdgeBad]
  · intro okFuncs m e rest v hOk hInt hx
    exact ⟨fun hb => processEdges_cons_safe okFuncs m e rest v hx hb,
           fun hb => processEdges_cons_bad okFuncs m e rest v hOk hInt hx hb⟩

/-- Witness for C3: a boxed value with `nil` referrers is classified safe. -/
theorem claim_C3_witness :
    evalEdgeBad (.makeInterface ⟨true, true, true⟩) = false :=
  (claim_C3_interface_exception.1 ⟨true, true, true⟩ rfl).mpr (Or.inl rfl)

/-- C4: with `argCount` the sink's recorded argument count, a resolved
argument list of length `argCount + 1` has its first argument dropped, one of
length exactly `argCount` is used as-is, and any other length panics with
`arg count mismatch`; such a mismatch on an evaluated edge makes the whole
`FindNonConstCalls` run abort with an error instead of returning findings. -/
theorem claim_C4_arg_count :
    (∀ (argCount : Nat) (args : List SSAValue),
        (args.length = argCount + 1 → adjustArgs argCount args = .ok (args.drop 1)) ∧
        (args.length = argCount → adjustArgs argCount args = .ok args) ∧
        (args.length ≠ argCount + 1 → args.length ≠ argCount →
          adjustArgs argCount args = .error "arg count mismatch")) ∧
    (∀ (cg : CallGraph) (qms : List QueryMethod) (m : QueryMethod) (e : Edge),
        m ∈ qms → e ∈ cg m.SSA →
        (qms.map (·.SSA)).contains e.siteParent = false →
        isInternalSQLPkg e.callerPkgPath = false →
        e.args.length ≠ m.ArgCount + 1 → e.args.length ≠ m.ArgCount →
        ∃ s, FindNonConstCalls cg qms = .error s) := by
  refine ⟨?_, ?_⟩
  · intro argCount args
    refine ⟨fun h => ?_, fun h => ?_, fun h1 h2 => ?_⟩
    · simp [adjustArgs, h]
    · have h1 : args.length ≠ argCount + 1 := by omega
      simp [adjustArgs, h, h1]
    · simp [adjustArgs, h1, h2]
  · intro cg qms m e hm he hOk hInt h1 h2
    have hadj : adjustArgs m.ArgCount e.args = .error "arg count mismatch" := by
      simp [adjustArgs, h1, h2]
    have hx : extractValue m e = .error "arg count mismatch" := by
      simp [extractValue, hadj]
    obtain ⟨s, hs⟩ :=
      processEdges_error_of_extract (qms.map (·.SSA)) m (cg m.SSA) e _ he hOk hInt hx
    exact findAux_error cg (qms.map (·.SSA)) qms m s hm hs

/-! Helper lemmas about `CheckIssues` and its per-finding classification. -/

/-- A negative index is never in range. -/
theorem lineAt_neg (ls : List String) (i : Int) (h : ¬ (0 : Int) ≤ i) :
    lineAt ls i = none := by
  simp [lineAt, h]

/-- `getLine` succeeds exactly on in-range lookups. -/
theorem getLine_ok_iff (ls : List String) (i : Int) (s : String) :
    getLine ls i = .ok s ↔ lineAt ls i = some s := by
  cases h : lineAt ls i <;> simp [getLine, h]

/-- Characterization of a successful per-finding classification: the computed
flag is `true` exactly when the preceding line begins with the marker, the
finding's own line ends with the marker, or the whole file is ignored. -/
theorem classifyPos_ok_true_iff (fileLines : List String) (fileIgn : Bool)
    (p : Position) (b : Bool)
    (h : classifyPos fileLines fileIgn p = .ok b) :
    (b = true ↔
      (∃ prev, lineAt fileLines (p.line - 2) = some prev ∧ BeginsWithComment prev = true) ∨
      (∃ cur, lineAt fileLines (p.line - 1) = some cur ∧ HasIgnoreComment cur = true) ∨
      fileIgn = true) := by
  simp only [classifyPos] at h
  by_cases hpc : (0 : Int) ≤ p.line - 2
  · rw [if_pos hpc] at h
    cases hprev : lineAt fileLines (p.line - 2) with
    | none => simp [getLine, hprev] at h
    | some prev =>
      simp only [getLine, hprev] at h
      by_cases hm : BeginsWithComment prev = true
      · rw [if_pos hm] at h
        simp only [Except.ok.injEq] at h
        subst h
        simp only [true_iff]
        exact Or.inl ⟨prev, rfl, hm⟩
      · rw [if_neg hm] at h
        cases hcur : lineAt fileLines (p.line - 1) with
        | none => simp [getLine, hcur] at h
        | some cur =>
          simp only [getLine, hcur, Except.ok.injEq] at h
          subst h
          constructor
          · intro hor
            rcases Bool.or_eq_true_iff.mp hor with hc | hg
            · exact Or.inr (Or.inl ⟨cur, rfl, hc⟩)
            · exact Or.inr (Or.inr hg)
          · intro hor
            rcases hor with ⟨prev', hprev', hm'⟩ | ⟨cur', hcur', hc'⟩ | hg
            · cases Option.some.inj hprev'
              exact absurd hm' hm
            · cases Option.some.inj hcur'
              exact Bool.or_eq_true_iff.mpr (Or.inl hc')
            · exact Bool.or_eq_true_iff.mpr (Or.inr hg)
  · rw [if_neg hpc] at h
    cases hcur : lineAt fileLines (p.line - 1) with
    | none => simp [getLine, hcur] at h
    | some cur =>
      simp only [getLine, hcur, Except.ok.injEq] at h
      subst h
      constructor
      · intro hor
        rcases Bool.or_eq_true_iff.mp hor with hc | hg
        · exact Or.inr (Or.inl ⟨cur, rfl, hc⟩)
        · exact Or.inr (Or.inr hg)
      · intro hor
        rcases hor with ⟨prev', hprev', _⟩ | ⟨cur', hcur', hc'⟩ | hg
        · rw [lineAt_neg fileLines _ hpc] at hprev'
          cases hprev'
        · cases Option.some.inj hcur'
          exact Bool.or_eq_true_iff.mpr (Or.inl hc')
        · exact Bool.or_eq_true_iff.mpr (Or.inr hg)

/-- The classification flag depends only on the two consulted lines. -/
theorem classifyPos_congr (ls1 ls2 : List String) (ign : Bool) (p : Position)
    (b1 b2 : Bool)
    (h1 : classifyPos ls1 ign p = .ok b1) (h2 : classifyPos ls2 ign p = .ok b2)
    (ha2 : lineAt ls1 (p.line - 2) = lineAt ls2 (p.line - 2))
    (ha1 : lineAt ls1 (p.line - 1) = lineAt ls2 (p.line - 1)) :
    b1 = b2 := by
  simp only [classifyPos] at h1 h2
  by_cases hpc : (0 : Int) ≤ p.line - 2
  · rw [if_pos hpc] at h1 h2
    cases hprev1 : lineAt ls1 (p.line - 2) with
    | none => simp [getLine, hprev1] at h1
    | some prev =>
      have hprev2 : lineAt ls2 (p.line - 2) = some prev := by rw [← ha2, hprev1]
      simp only [getLine, hprev1] at h1
      simp only [getLine, hprev2] at h2
      by_cases hm : BeginsWithComment prev = true
      · rw [if_pos hm] at h1 h2
        simp only [Except.ok.injEq] at h1 h2
        rw [← h1, ← h2]
      · rw [if_neg hm] at h1 h2
        cases hcur1 : lineAt ls1 (p.line - 1) with
        | none => simp [getLine, hcur1] at h1
        | some cur =>
          have hcur2 : lineAt ls2 (p.line - 1) = some cur := by rw [← ha1, hcur1]
          simp only [getLine, hcur1, Except.ok.injEq] at h1
          simp only [getLine, hcur2, Except.ok.injEq] at h2
          rw [← h1, ← h2]
  · rw [if_neg hpc] at h1 h2
    cases hcur1 : lineAt ls1 (p.line - 1) with
    | none => simp [getLine, hcur1] at h1
    | some cur =>
      have hcur2 : lineAt ls2 (p.line - 1) = some cur := by rw [← ha1, hcur1]
      simp only [getLine, hcur1, Except.ok.injEq] at h1
      simp only [getLine, hcur2, Except.ok.injEq] at h2
      rw [← h1, ← h2]

/-- Classification succeeds whenever the finding's line number is within the
file (1-indexed). -/
theorem classifyPos_ok_of_bound (ls : List String) (ign : Bool) (p : Position)
    (h1 : (1 : Int) ≤ p.line) (h2 : p.line ≤ (ls.length : Int)) :
    ∃ b, classifyPos ls ign p = .ok b := by
  have hcur : lineAt ls (p.line - 1) = some (ls.get ⟨(p.line - 1).toNat, by omega⟩) := by
    have h0 : (0 : Int) ≤ p.line - 1 := by omega
    simp only [lineAt, if_pos h0]
    exact List.getElem?_eq_getElem (by omega)
  simp only [classifyPos]
  by_cases hpc : (0 : Int) ≤ p.line - 2
  · have hprev : lineAt ls (p.line - 2) = some (ls.get ⟨(p.line - 2).toNat, by omega⟩) := by
      simp only [lineAt, if_pos hpc]
      exact List.getElem?_eq_getElem (by omega)
    rw [if_pos hpc]
    simp only [getLine, hprev, hcur]
    by_cases hm : BeginsWithComment (ls.get ⟨(p.line - 2).toNat, by omega⟩) = true
    · exact ⟨true, by rw [if_pos hm]⟩
    · refine ⟨_, by rw [if_neg hm]⟩
  · rw [if_neg hpc]
    simp only [getLine, hcur]
    exact ⟨_, rfl⟩

/-- A finding on line 1 is classified from its own line (index 0) and the
whole-file flag only; the preceding-line rule is skipped by the negative
index guard. -/
theorem classifyPos_line_one (ls : List String) (ign : Bool) (p : Position)
    (h : p.line = 1) :
    classifyPos ls ign p =
      (getLine ls 0).map (fun cur => HasIgnoreComment cur || ign) := by
  have hpc : ¬ (0 : Int) ≤ p.line - 2 := by omega
  have h1 : p.line - 1 = (0 : Int) := by omega
  simp only [classifyPos, if_neg hpc, h1]
  cases hcur : getLine ls 0 <;> simp [Except.map]

/-- Unfolding equation for `checkLinesInFile` on a nonempty list. -/
theorem checkLinesInFile_cons_eq (ls : List String) (ign : Bool) (p : Position)
    (rest : List Position) :
    checkLinesInFile ls ign (p :: rest) =
      match classifyPos ls ign p with
      | .error err => .error err
      | .ok b =>
        match checkLinesInFile ls ign rest with
        | .error err => .error err
        | .ok is => .ok (⟨p, b⟩ :: is) := rfl

/-- Every issue of a successful per-file loop records its position's
classification. -/
theorem checkLinesInFile_ok_mem (ls : List String) (ign : Bool) :
    ∀ (ps : List Position) (is : List Issue) (i : Issue),
      checkLinesInFile ls ign ps = .ok is → i ∈ is →
      i.statement ∈ ps ∧ classifyPos ls ign i.statement = .ok i.ignored := by
  intro ps
  induction ps with
  | nil =>
    intro is i hp hi
    cases hp
    cases hi
  | cons hd tl ih =>
    intro is i hp hi
    rw [checkLinesInFile_cons_eq] at hp
    cases hb : classifyPos ls ign hd with
    | error err => rw [hb] at hp; cases hp
    | ok b =>
      rw [hb] at hp
      cases hrest : checkLinesInFile ls ign tl with
      | error err => rw [hrest] at hp; cases hp
      | ok is' =>
        rw [hrest] at hp
        simp only [Except.ok.injEq] at hp
        subst hp
        rcases List.mem_cons.mp hi with rfl | hi'
        · exact ⟨List.mem_cons_self _ _, hb⟩
        · obtain ⟨h1, h2⟩ := ih is' i hrest hi'
          exact ⟨List.mem_cons_of_mem _ h1, h2⟩

/-- Every listed position yields an issue in a successful per-file loop. -/
theorem checkLinesInFile_ok_covers (ls : List String) (ign : Bool) :
    ∀ (ps : List Position) (is : List Issue) (p : Position),
      checkLinesInFile ls ign ps = .ok is → p ∈ ps →
      ∃ b, Issue.mk p b ∈ is := by
  intro ps
  induction ps with
  | nil => intro is p _ hp; cases hp
  | cons hd tl ih =>
    intro is p hp hmem
    rw [checkLinesInFile_cons_eq] at hp
    cases hb : classifyPos ls ign hd with
    | error err => rw [hb] at hp; cases hp
    | ok b =>
      rw [hb] at hp
      cases hrest : checkLinesInFile ls ign tl with
      | error err => rw [hrest] at hp; cases hp
      | ok is' =>
        rw [hrest] at hp
        simp only [Except.ok.injEq] at hp
        subst hp
        rcases List.mem_cons.mp hmem with rfl | hmem'
        · exact ⟨b, List.mem_cons_self _ _⟩
        · obtain ⟨b', hb'⟩ := ih is' p hrest hmem'
          exact ⟨b', List.mem_cons_of_mem _ hb'⟩

/-- The per-file loop succeeds when every listed position classifies. -/
theorem checkLinesInFile_ok_of_all (ls : List String) (ign : Bool) :
    ∀ (ps : List Position),
      (∀ p ∈ ps, ∃ b, classifyPos ls ign p = .ok b) →
      ∃ is, checkLinesInFile ls ign ps = .ok is := by
  intro ps
  induction ps with
  | nil => intro _; exact ⟨[], rfl⟩
  | cons hd tl ih =>
    intro hall
    obtain ⟨b, hb⟩ := hall hd (List.mem_cons_self _ _)
    obtain ⟨is, his⟩ := ih fun p hp => hall p (List.mem_cons_of_mem _ hp)
    refine ⟨⟨hd, b⟩ :: is, ?_⟩
    rw [checkLinesInFile_cons_eq, hb, his]

/-- Insertion preserves the underlying membership. -/
theorem mem_insertByLine (p x : Position) :
    ∀ (ps : List Position), x ∈ insertByLine p ps ↔ x = p ∨ x ∈ ps := by
  intro ps
  induction ps with
  | nil => simp [insertByLine]
  | cons hd tl ih =>
    by_cases hlt : p.line < hd.line
    · simp [insertByLine, hlt]
    · simp only [insertByLine, if_neg hlt, List.mem_cons, ih]
      tauto

/-- Sorting a file's findings is a permutation for membership purposes. -/
theorem mem_sortByLine (x : Position) :
    ∀ (ps : List Position), x ∈ sortByLine ps ↔ x ∈ ps := by
  intro ps
  induction ps with
  | nil => simp [sortByLine]
  | cons hd tl ih => simp [sortByLine, mem_insertByLine, ih]

/-- Membership in the deduplicated key list. -/
theorem mem_dedupKeysAux (x : String) :
    ∀ (l : List String) (seen : List String),
      x ∈ dedupKeysAux seen l ↔ x ∈ l ∧ x ∉ seen := by
  intro l
  induction l with
  | nil => intro seen; simp [dedupKeysAux]
  | cons hd tl ih =>
    intro seen
    by_cases hs : seen.contains hd
    · rw [dedupKeysAux, if_pos hs]
      rw [ih seen]
      have hhd : hd ∈ seen := by simpa using hs
      constructor
      · rintro ⟨h1, h2⟩
        exact ⟨List.mem_cons_of_mem _ h1, h2⟩
      · rintro ⟨h1, h2⟩
        rcases List.mem_cons.mp h1 with rfl | h1'
        · exact absurd hhd h2
        · exact ⟨h1', h2⟩
    · rw [dedupKeysAux, if_neg hs]
      have hhd : hd ∉ seen := fun hmem => hs (by simpa using hmem)
      constructor
      · intro hx
        rcases List.mem_cons.mp hx with rfl | hx'
        · exact ⟨List.mem_cons_self _ _, hhd⟩
        · obtain ⟨h1, h2⟩ := (ih (hd :: seen)).mp hx'
          refine ⟨List.mem_cons_of_mem _ h1, fun hmem => h2 (List.mem_cons_of_mem _ hmem)⟩
      · rintro ⟨h1, h2⟩
        rcases List.mem_cons.mp h1 with rfl | h1'
        · exact List.mem_cons_self _ _
        · by_cases hxhd : x = hd
          · subst hxhd; exact List.mem_cons_self _ _
          · refine List.mem_cons_of_mem _ ((ih (hd :: seen)).mpr ⟨h1', ?_⟩)
            intro hmem
            rcases List.mem_cons.mp hmem with h | h
            · exact hxhd h
            · exact h2 h

/-- Every issue of a successful per-file batch comes from a listed finding of
that file, with its classification. -/
theorem processFile_ok_mem (fs : String → String) (lines : List Position)
    (file : String) (isf : List Issue) (i : Issue)
    (hp : processFile fs lines file = .ok isf) (hi : i ∈ isf) :
    i.statement ∈ lines ∧ i.statement.filename = file ∧
      classifyPos (splitLines (fs file)) (fileIsIgnored file) i.statement = .ok i.ignored := by
  obtain ⟨h1, h2⟩ := checkLinesInFile_ok_mem _ _ _ isf i hp hi
  rw [mem_sortByLine] at h1
  have h3 := List.mem_filter.mp h1
  refine ⟨h3.1, ?_, h2⟩
  exact eq_of_beq h3.2

/-- A listed finding of the processed file yields an issue in the batch. -/
theorem processFile_ok_covers (fs : String → String) (lines : List Position)
    (p : Position) (isf : List Issue)
    (hp : processFile fs lines p.filename = .ok isf) (hmem : p ∈ lines) :
    ∃ b, Issue.mk p b ∈ isf := by
  refine checkLinesInFile_ok_covers _ _ _ isf p hp ?_
  rw [mem_sortByLine]
  exact List.mem_filter.mpr ⟨hmem, beq_self_eq_true _⟩

/-- Every issue of a successful outer loop comes from some key's batch. -/
theorem checkFiles_ok_mem (fs : String → String) (lines : List Position) :
    ∀ (keys : List String) (issues : List Issue) (i : Issue),
      checkFiles fs lines keys = .ok issues → i ∈ issues →
      ∃ f, f ∈ keys ∧ ∃ isf, processFile fs lines f = .ok isf ∧ i ∈ isf := by
  intro keys
  induction keys with
  | nil =>
    intro issues i hp hi
    cases hp
    cases hi
  | cons hd tl ih =>
    intro issues i hp hi
    rw [checkFiles] at hp
    cases h1 : processFile fs lines hd with
    | error err => rw [h1] at hp; cases hp
    | ok is1 =>
      rw [h1] at hp
      cases h2 : checkFiles fs lines tl with
      | error err => rw [h2] at hp; cases hp
      | ok is2 =>
        rw [h2] at hp
        simp only [Except.ok.injEq] at hp
        subst hp
        rcases List.mem_append.mp hi with hi1 | hi2
        · exact ⟨hd, List.mem_cons_self _ _, is1, h1, hi1⟩
        · obtain ⟨f, hf, rest⟩ := ih is2 i h2 hi2
          exact ⟨f, List.mem_cons_of_mem _ hf, rest⟩

/-- A listed key's successful batch is contained in a successful outer
loop's issues. -/
theorem checkFiles_ok_key (fs : String → String) (lines : List Position) :
    ∀ (keys : List String) (issues : List Issue) (f : String),
      checkFiles fs lines keys = .ok issues → f ∈ keys →
      ∃ isf, processFile fs lines f = .ok isf ∧ ∀ i ∈ isf, i ∈ issues := by
  intro keys
  induction keys with
  | nil => intro issues f _ hf; cases hf
  | cons hd tl ih =>
    intro issues f hp hf
    rw [checkFiles] at hp
    cases h1 : processFile fs lines hd with
    | error err => rw [h1] at hp; cases hp
    | ok is1 =>
      rw [h1] at hp
      cases h2 : checkFiles fs lines tl with
      | error err => rw [h2] at hp; cases hp
      | ok is2 =>
        rw [h2] at hp
        simp only [Except.ok.injEq] at hp
        subst hp
        rcases List.mem_cons.mp hf with rfl | hf'
        · exact ⟨is1, h1, fun i hi => List.mem_append_left _ hi⟩
        · obtain ⟨isf, hisf, hsub⟩ := ih is2 f h2 hf'
          exact ⟨isf, hisf, fun i hi => List.mem_append_right _ (hsub i hi)⟩

/-- The outer loop succeeds when every key's batch succeeds. -/
theorem checkFiles_ok_of_all (fs : String → String) (lines : List Position) :
    ∀ (keys : List String),
      (∀ f ∈ keys, ∃ isf, processFile fs lines f = .ok isf) →
      ∃ issues, checkFiles fs lines keys = .ok issues := by
  intro keys
  induction keys with
  | nil => intro _; exact ⟨[], rfl⟩
  | cons hd tl ih =>
    intro hall
    obtain ⟨is1, h1⟩ := hall hd (List.mem_cons_self _ _)
    obtain ⟨is2, h2⟩ := ih fun f hf => hall f (List.mem_cons_of_mem _ hf)
    exact ⟨is1 ++ is2, by rw [checkFiles, h1, h2]⟩

/-- Bridge: every issue of a successful `CheckIssues` run is a listed finding
whose flag is its classification against its own file. -/
theorem checkIssues_ok_mem (fs : String → String) (lines : List Position)
    (issues : List Issue) (i : Issue)
    (hrun : CheckIssues fs lines = .ok issues) (hi : i ∈ issues) :
    i.statement ∈ lines ∧
      classifyPos (splitLines (fs i.statement.filename))
        (fileIsIgnored i.statement.filename) i.statement = .ok i.ignored := by
  obtain ⟨f, _, isf, hisf, hif⟩ := checkFiles_ok_mem fs lines _ issues i hrun hi
  obtain ⟨h1, h2, h3⟩ := processFile_ok_mem fs lines f isf i hisf hif
  rw [h2]
  exact ⟨h1, h3⟩

/-- Coverage: every listed finding appears among the issues of a successful
`CheckIssues` run. -/
theorem checkIssues_ok_covers (fs : String → String) (lines : List Position)
    (issues : List Issue) (p : Position)
    (hrun : CheckIssues fs lines = .ok issues) (hmem : p ∈ lines) :
    ∃ b, Issue.mk p b ∈ issues := by
  have hkey : p.filename ∈ dedupKeysAux [] (lines.map (·.filename)) := by
    rw [mem_dedupKeysAux]
    exact ⟨List.mem_map.mpr ⟨p, hmem, rfl⟩, by simp⟩
  obtain ⟨isf, hisf, hsub⟩ := checkFiles_ok_key fs lines _ issues p.filename hrun hkey
  obtain ⟨b, hb⟩ := processFile_ok_covers fs lines p isf hisf hmem
  exact ⟨b, hsub _ hb⟩

/-- Witness for C4: a two-parameter sink receiving an empty argument list is
an arg-count mismatch and aborts the run with an error. -/
theorem claim_C4_witness :
    ∃ s, FindNonConstCalls
        (fun n => if n = 1 then [(⟨10, "main", [], 42⟩ : Edge)] else [])
        [(⟨"DB", "Query", 1, 2, 0⟩ : QueryMethod)] = .error s :=
  claim_C4_arg_count.2
    (fun n => if n = 1 then [⟨10, "main", [], 42⟩] else [])
    [⟨"DB", "Query", 1, 2, 0⟩] ⟨"DB", "Query", 1, 2, 0⟩ ⟨10, "main", [], 42⟩
    (by decide) (by decide) (by decide) (by decide) (by decide) (by decide)

/-- C7: in a successful `CheckIssues` run every input finding is present in
the returned issue list (suppressed ones included), and a finding is marked
ignored exactly when the line before it begins (after trimming) with the
ignore marker, or its own line ends (after trimming) with the marker, or its
file path ends with an entry of the static ignored-files list. The
preceding-line rule short-circuits the own-line rule, which the flag
equivalence absorbs: when the preceding line matches, the flag is `true`
without the own line being read. -/
theorem claim_C7_suppression (fs : String → String) (lines : List Position)
    (issues : List Issue)
    (hrun : CheckIssues fs lines = .ok issues) :
    (∀ p ∈ lines, ∃ i, i ∈ issues ∧ i.statement = p) ∧
    (∀ i ∈ issues,
      (i.ignored = true ↔
        (∃ prev, lineAt (splitLines (fs i.statement.filename)) (i.statement.line - 2) = some prev ∧
           BeginsWithComment prev = true) ∨
        (∃ cur, lineAt (splitLines (fs i.statement.filename)) (i.statement.line - 1) = some cur ∧
           HasIgnoreComment cur = true) ∨
        fileIsIgnored i.statement.filename = true)) := by
  constructor
  · intro p hp
    obtain ⟨b, hb⟩ := checkIssues_ok_covers fs lines issues p hrun hp
    exact ⟨⟨p, b⟩, hb, rfl⟩
  · intro i hi
    obtain ⟨_, hcls⟩ := checkIssues_ok_mem fs lines issues i hrun hi
    exact classifyPos_ok_true_iff _ _ _ _ hcls

/-- Witness for C7 on a two-line file whose first line is the marker: the
finding on line 2 is reported and marked ignored. -/
theorem claim_C7_witness :
    (∀ p ∈ [(⟨"f.go", 2, 1⟩ : Position)],
        ∃ i, i ∈ [(⟨⟨"f.go", 2, 1⟩, true⟩ : Issue)] ∧ i.statement = p) ∧
    (∀ i ∈ [(⟨⟨"f.go", 2, 1⟩, true⟩ : Issue)],
        (i.ignored = true ↔
          (∃ prev, lineAt (splitLines "//nolint:safesql\nbad") (i.statement.line - 2) = some prev ∧
             BeginsWithComment prev = true) ∨
          (∃ cur, lineAt (splitLines "//nolint:safesql\nbad") (i.statement.line - 1) = some cur ∧
             HasIgnoreComment cur = true) ∨
          fileIsIgnored i.statement.filename = true)) :=
  claim_C7_suppression (fun _ => "//nolint:safesql\nbad") [⟨"f.go", 2, 1⟩]
    [⟨⟨"f.go", 2, 1⟩, true⟩] rfl

/-- C9: the ignored flag of a finding depends only on the two source lines at
1-indexed positions `line - 1` and `line` of its file (indices `line - 2` and
`line - 1` after splitting) and on the file path's match against the
whole-file suppression list: two successful runs over file contents agreeing
on those two lines assign the same finding the same flag. -/
theorem claim_C9_two_line_dependence (fs1 fs2 : String → String)
    (lines1 lines2 : List Position) (issues1 issues2 : List Issue)
    (p : Position) (b1 b2 : Bool)
    (h1 : CheckIssues fs1 lines1 = .ok issues1)
    (h2 : CheckIssues fs2 lines2 = .ok issues2)
    (hi1 : Issue.mk p b1 ∈ issues1) (hi2 : Issue.mk p b2 ∈ issues2)
    (ha2 : lineAt (splitLines (fs1 p.filename)) (p.line - 2) =
           lineAt (splitLines (fs2 p.filename)) (p.line - 2))
    (ha1 : lineAt (splitLines (fs1 p.filename)) (p.line - 1) =
           lineAt (splitLines (fs2 p.filename)) (p.line - 1)) :
    b1 = b2 := by
  obtain ⟨_, hc1⟩ := checkIssues_ok_mem fs1 lines1 issues1 _ h1 hi1
  obtain ⟨_, hc2⟩ := checkIssues_ok_mem fs2 lines2 issues2 _ h2 hi2
  exact classifyPos_congr _ _ _ _ _ _ hc1 hc2 ha2 ha1

/-- Witness for C9: two files agreeing on the two consulted lines but
differing on line 3 classify the same finding identically. -/
theorem claim_C9_witness : false = false :=
  claim_C9_two_line_dependence (fun _ => "a\nbad\nc") (fun _ => "a\nbad\nDIFF")
    [⟨"f.go", 2, 1⟩] [⟨"f.go", 2, 1⟩]
    [⟨⟨"f.go", 2, 1⟩, false⟩] [⟨⟨"f.go", 2, 1⟩, false⟩]
    ⟨"f.go", 2, 1⟩ false false rfl rfl (by decide) (by decide) rfl rfl

/-- C10: `CheckIssues` indexes the split file at `line.Line - 1` with no
upper-bound check, so the run is error-free whenever every finding's
1-indexed line number lies within its file; and the `line.Line - 2` lookup
is guarded against negative indices, so a finding on line 1 is classified
from its own line (index 0) and the whole-file flag only. -/
theorem claim_C10_bounds :
    (∀ (fs : String → String) (lines : List Position),
        (∀ p ∈ lines,
          (1 : Int) ≤ p.line ∧ p.line ≤ ((splitLines (fs p.filename)).length : Int)) →
        ∃ issues, CheckIssues fs lines = .ok issues) ∧
    (∀ (ls : List String) (ign : Bool) (p : Position), p.line = 1 →
        classifyPos ls ign p =
          (getLine ls 0).map (fun cur => HasIgnoreComment cur || ign)) := by
  constructor
  · intro fs lines hall
    refine checkFiles_ok_of_all fs lines _ (fun f _ => ?_)
    refine checkLinesInFile_ok_of_all _ _ _ (fun p hp => ?_)
    rw [mem_sortByLine] at hp
    have hf := List.mem_filter.mp hp
    have hfn : p.filename = f := eq_of_beq hf.2
    obtain ⟨hl1, hl2⟩ := hall p hf.1
    rw [← hfn]
    exact classifyPos_ok_of_bound _ _ p hl1 hl2
  · exact classifyPos_line_one

/-- Witness for C10: a two-line file with findings on lines 1 and 2
classifies without error. -/
theorem claim_C10_witness :
    ∃ issues, CheckIssues (fun _ => "a\nb")
      [(⟨"f.go", 1, 1⟩ : Position), ⟨"f.go", 2, 2⟩] = .ok issues :=
  claim_C10_bounds.1 (fun _ => "a\nb") [⟨"f.go", 1, 1⟩, ⟨"f.go", 2, 2⟩] (by decide)

/-- Counterexample to C8 as stated: a caller declared in the pgxpool wrapper
file belongs to package `github.com/jackc/pgx/v4/pgxpool`, which is not one
of the tracked package identifiers, so `FindNonConstCalls` does include its
non-constant call site in the returned set (the wrapper file is handled only
later, by `CheckIssues` via the ignored-files suffix list). -/
theorem claim_C8_counterexample :
    FindNonConstCalls
        (fun n => if n = 1 then [(⟨10, "github.com/jackc/pgx/v4/pgxpool", [SSAValue.other], 42⟩ : Edge)] else [])
        [(⟨"Conn", "Query", 1, 1, 0⟩ : QueryMethod)] = .ok [42] ∧
    (⟨10, "github.com/jackc/pgx/v4/pgxpool", [SSAValue.other], 42⟩ : Edge).site ∈ [42] ∧
    isInternalSQLPkg "github.com/jackc/pgx/v4/pgxpool" = false ∧
    fileIsIgnored "github.com/jackc/pgx/v4/pgxpool/conn.go" = true :=
  ⟨rfl, by decide, by decide, by decide⟩

/-- C8 amended: an edge whose caller's declaring package path equals one of
the tracked database-access package identifiers is skipped by
`FindNonConstCalls`; callers in the known wrapper file
`github.com/jackc/pgx/v4/pgxpool/conn.go` are not covered by that skip (their
package path is not a tracked identifier), but every finding in a file
matching the ignored-files suffix list is marked suppressed by
`CheckIssues`. -/
theorem claim_C8_internal_skip :
    (∀ (okFuncs : List Nat) (m : QueryMethod) (e : Edge) (rest : List Edge),
        isInternalSQLPkg e.callerPkgPath = true →
        processEdges okFuncs m (e :: rest) = processEdges okFuncs m rest) ∧
    (∀ (fs : String → String) (lines : List Position) (issues : List Issue) (i : Issue),
        CheckIssues fs lines = .ok issues → i ∈ issues →
        fileIsIgnored i.statement.filename = true →
        i.ignored = true) := by
  constructor
  · intro okFuncs m e rest h
    exact processEdges_cons_skip okFuncs m e rest (Or.inr h)
  · intro fs lines issues i hrun hi hfile
    obtain ⟨_, hcls⟩ := checkIssues_ok_mem fs lines issues i hrun hi
    exact (classifyPos_ok_true_iff _ _ _ _ hcls).mpr (Or.inr (Or.inr hfile))

/-- Witness for the amended C8: a `database/sql`-internal caller's edge is
skipped, and a finding inside the pgxpool wrapper file is marked ignored. -/
theorem claim_C8_witness :
    processEdges [] (⟨"DB", "Query", 1, 1, 0⟩ : QueryMethod)
        [(⟨10, "database/sql", [SSAValue.other], 42⟩ : Edge)] =
      processEdges [] (⟨"DB", "Query", 1, 1, 0⟩ : QueryMethod) [] :=
  claim_C8_internal_skip.1 [] ⟨"DB", "Query", 1, 1, 0⟩
    ⟨10, "database/sql", [SSAValue.other], 42⟩ [] (by decide)

/-! Helper lemmas about `FindQueryMethods` and `FuncHasQuery`. -/

/-- Characterization of the indexed parameter scan: it returns `some k`
exactly for the first position (counting from `i`) whose name matches. -/
theorem funcHasQueryAux_some_iff (names : List String) :
    ∀ (params : List String) (i k : Nat),
      funcHasQueryAux names i params = some k ↔
        ∃ j, k = i + j ∧ (∃ p, params[j]? = some p ∧ names.contains p = true) ∧
          ∀ j' p', j' < j → params[j']? = some p' → names.contains p' = false := by
  intro params
  induction params with
  | nil =>
    intro i k
    simp [funcHasQueryAux]
  | cons q rest ih =>
    intro i k
    by_cases hq : names.contains q = true
    · rw [funcHasQueryAux, if_pos hq]
      constructor
      · intro h
        simp only [Option.some.injEq] at h
        subst h
        exact ⟨0, by omega, ⟨q, by simp, hq⟩, fun j' p' hj' _ => absurd hj' (Nat.not_lt_zero _)⟩
      · rintro ⟨j, hk, ⟨p, hget, hp⟩, hmin⟩
        cases j with
        | zero => simp only [Option.some.injEq]; omega
        | succ j1 =>
          have hcontra := hmin 0 q (Nat.succ_pos _) (by simp)
          rw [hcontra] at hq
          cases hq
    · rw [funcHasQueryAux, if_neg hq]
      rw [ih (i + 1) k]
      constructor
      · rintro ⟨j, hk, ⟨p, hget, hp⟩, hmin⟩
        refine ⟨j + 1, by omega, ⟨p, by simpa using hget, hp⟩, ?_⟩
        intro j' p' hj' hget'
        cases j' with
        | zero =>
          simp only [List.getElem?_cons_zero, Option.some.injEq] at hget'
          subst hget'
          simpa using hq
        | succ j1' =>
          refine hmin j1' p' (by omega) ?_
          simpa using hget'
      · rintro ⟨j, hk, ⟨p, hget, hp⟩, hmin⟩
        cases j with
        | zero =>
          simp only [List.getElem?_cons_zero, Option.some.injEq] at hget
          subst hget
          rw [hp] at hq
          cases hq rfl
        | succ j1 =>
          refine ⟨j1, by omega, ⟨p, by simpa using hget, hp⟩, ?_⟩
          intro j' p' hj' hget'
          refine hmin (j' + 1) p' (by omega) ?_
          simpa using hget'

/-- `FuncHasQuery` returns the first parameter position whose name matches
one of the package's sensitive names; earlier positions never match, and the
parameter's type is never consulted (the scan sees only names). -/
theorem FuncHasQuery_some_iff (pkg : sqlPackage) (params : List String) (k : Nat) :
    FuncHasQuery pkg params = some k ↔
      (∃ p, params[k]? = some p ∧ pkg.paramNames.contains p = true) ∧
      ∀ j p', j < k → params[j]? = some p' → pkg.paramNames.contains p' = false := by
  rw [FuncHasQuery, funcHasQueryAux_some_iff]
  constructor
  · rintro ⟨j, hk, hg, hmin⟩
    have hjk : j = k := by omega
    subst hjk
    exact ⟨hg, hmin⟩
  · rintro ⟨hg, hmin⟩
    exact ⟨k, by omega, hg, hmin⟩

/-- Membership in the per-type method scan. -/
theorem mem_findQueryMethodsOfType (pkg : sqlPackage) (typeName : String) :
    ∀ (methods : List MethodObj) (qm : QueryMethod),
      qm ∈ findQueryMethodsOfType pkg typeName methods ↔
        ∃ mo, mo ∈ methods ∧ mo.exported = true ∧
          ∃ num, FuncHasQuery pkg mo.params = some num ∧
            qm = ⟨typeName, mo.name, mo.ssa, mo.params.length, num⟩ := by
  intro methods
  induction methods with
  | nil =>
    intro qm
    simp [findQueryMethodsOfType]
  | cons mo rest ih =>
    intro qm
    by_cases hexp : mo.exported = true
    · cases hfq : FuncHasQuery pkg mo.params with
      | some num =>
        have heq : findQueryMethodsOfType pkg typeName (mo :: rest) =
            ⟨typeName, mo.name, mo.ssa, mo.params.length, num⟩ ::
              findQueryMethodsOfType pkg typeName rest := by
          rw [findQueryMethodsOfType, if_pos hexp, hfq]
        rw [heq]
        constructor
        · intro hmem
          rcases List.mem_cons.mp hmem with rfl | hmem'
          · exact ⟨mo, List.mem_cons_self _ _, hexp, num, hfq, rfl⟩
          · obtain ⟨mo', hmo', hexp', num', hfq', rfl⟩ := (ih qm).mp hmem'
            exact ⟨mo', List.mem_cons_of_mem _ hmo', hexp', num', hfq', rfl⟩
        · rintro ⟨mo', hmo', hexp', num', hfq', rfl⟩
          rcases List.mem_cons.mp hmo' with rfl | hmo''
          · rw [hfq] at hfq'
            cases hfq'
            exact List.mem_cons_self _ _
          · exact List.mem_cons_of_mem _
              ((ih _).mpr ⟨mo', hmo'', hexp', num', hfq', rfl⟩)
      | none =>
        have heq : findQueryMethodsOfType pkg typeName (mo :: rest) =
            findQueryMethodsOfType pkg typeName rest := by
          rw [findQueryMethodsOfType, if_pos hexp, hfq]
        rw [heq, ih]
        constructor
        · rintro ⟨mo', hmo', hexp', num', hfq', rfl⟩
          exact ⟨mo', List.mem_cons_of_mem _ hmo', hexp', num', hfq', rfl⟩
        · rintro ⟨mo', hmo', hexp', num', hfq', rfl⟩
          rcases List.mem_cons.mp hmo' with rfl | hmo''
          · rw [hfq] at hfq'
            cases hfq'
          · exact ⟨mo', hmo'', hexp', num', hfq', rfl⟩
    · have heq : findQueryMethodsOfType pkg typeName (mo :: rest) =
          findQueryMethodsOfType pkg typeName rest := by
        rw [findQueryMethodsOfType, if_neg hexp]
      rw [heq, ih]
      constructor
      · rintro ⟨mo', hmo', hexp', num', hfq', rfl⟩
        exact ⟨mo', List.mem_cons_of_mem _ hmo', hexp', num', hfq', rfl⟩
      · rintro ⟨mo', hmo', hexp', num', hfq', rfl⟩
        rcases List.mem_cons.mp hmo' with rfl | hmo''
        · exact absurd hexp' hexp
        · exact ⟨mo', hmo'', hexp', num', hfq', rfl⟩

/-- Membership in the scope scan of `FindQueryMethods`. -/
theorem mem_FindQueryMethods (pkg : sqlPackage) :
    ∀ (scope : List ScopeObj) (qm : QueryMethod),
      qm ∈ FindQueryMethods pkg scope ↔
        ∃ o, o ∈ scope ∧ o.exported = true ∧ o.isTypeName = true ∧
          ∃ mo, mo ∈ o.methods ∧ mo.exported = true ∧
            ∃ num, FuncHasQuery pkg mo.params = some num ∧
              qm = ⟨o.name, mo.name, mo.ssa, mo.params.length, num⟩ := by
  intro scope
  induction scope with
  | nil =>
    intro qm
    simp [FindQueryMethods]
  | cons o rest ih =>
    intro qm
    by_cases hexp : o.exported = true
    · by_cases hty : o.isTypeName = true
      · have heq : FindQueryMethods pkg (o :: rest) =
            findQueryMethodsOfType pkg o.name o.methods ++ FindQueryMethods pkg rest := by
          rw [FindQueryMethods, if_pos hexp, if_pos hty]
        rw [heq]
        rw [List.mem_append, mem_findQueryMethodsOfType, ih]
        constructor
        · rintro (⟨mo, hmo, hexp', num, hfq, rfl⟩ | ⟨o', ho', rest'⟩)
          · exact ⟨o, List.mem_cons_self _ _, hexp, hty, mo, hmo, hexp', num, hfq, rfl⟩
          · exact ⟨o', List.mem_cons_of_mem _ ho', rest'⟩
        · rintro ⟨o', ho', hexp', hty', mo, hmo, hexpm, num, hfq, rfl⟩
          rcases List.mem_cons.mp ho' with rfl | ho''
          · exact Or.inl ⟨mo, hmo, hexpm, num, hfq, rfl⟩
          · exact Or.inr ⟨o', ho'', hexp', hty', mo, hmo, hexpm, num, hfq, rfl⟩
      · have heq : FindQueryMethods pkg (o :: rest) = FindQueryMethods pkg rest := by
          rw [FindQueryMethods, if_pos hexp, if_neg hty]
        rw [heq, ih]
        constructor
        · rintro ⟨o', ho', rest'⟩
          exact ⟨o', List.mem_cons_of_mem _ ho', rest'⟩
        · rintro ⟨o', ho', hexp', hty', rest'⟩
          rcases List.mem_cons.mp ho' with rfl | ho''
          · exact absurd hty' hty
          · exact ⟨o', ho'', hexp', hty', rest'⟩
    · have heq : FindQueryMethods pkg (o :: rest) = FindQueryMethods pkg rest := by
        rw [FindQueryMethods, if_neg hexp]
      rw [heq, ih]
      constructor
      · rintro ⟨o', ho', rest'⟩
        exact ⟨o', List.mem_cons_of_mem _ ho', rest'⟩
      · rintro ⟨o', ho', hexp', hty', rest'⟩
        rcases List.mem_cons.mp ho' with rfl | ho''
        · exact absurd hexp' hexp
        · exact ⟨o', ho'', hexp', hty', rest'⟩

/-- C5: `FindQueryMethods` emits a sink exactly for each exported method of
each exported named type whose signature has a parameter named as one of the
package's sensitive names — matching by parameter name alone (the scan sees
only names, never types) — recording as `Param` the first positional match in
declaration order and as `ArgCount` the declared parameter count excluding
the receiver (`Signature.Params` excludes the receiver). -/
theorem claim_C5_sink_resolution :
    (∀ (pkg : sqlPackage) (scope : List ScopeObj) (qm : QueryMethod),
        qm ∈ FindQueryMethods pkg scope ↔
          ∃ o, o ∈ scope ∧ o.exported = true ∧ o.isTypeName = true ∧
            ∃ mo, mo ∈ o.methods ∧ mo.exported = true ∧
              ∃ num, FuncHasQuery pkg mo.params = some num ∧
                qm = ⟨o.name, mo.name, mo.ssa, mo.params.length, num⟩) ∧
    (∀ (pkg : sqlPackage) (params : List String) (k : Nat),
        FuncHasQuery pkg params = some k ↔
          (∃ p, params[k]? = some p ∧ pkg.paramNames.contains p = true) ∧
          ∀ j p', j < k → params[j]? = some p' → pkg.paramNames.contains p' = false) :=
  ⟨mem_FindQueryMethods, FuncHasQuery_some_iff⟩

/-- Witness for C5: a signature `(ctx, query)` matches `database/sql` at
position 1 with argument count 2. -/
theorem claim_C5_witness :
    (⟨"DB", "Query", 7, 2, 1⟩ : QueryMethod) ∈
      FindQueryMethods ⟨"database/sql", ["query"], false⟩
        [⟨"DB", true, true, [⟨"Query", true, ["ctx", "query"], 7⟩]⟩] :=
  (claim_C5_sink_resolution.1 ⟨"database/sql", ["query"], false⟩
      [⟨"DB", true, true, [⟨"Query", true, ["ctx", "query"], 7⟩]⟩]
      ⟨"DB", "Query", 7, 2, 1⟩).mpr
    ⟨⟨"DB", true, true, [⟨"Query", true, ["ctx", "query"], 7⟩]⟩, List.mem_cons_self _ _,
      rfl, rfl,
      ⟨"Query", true, ["ctx", "query"], 7⟩, List.mem_cons_self _ _, rfl, 1, rfl, rfl⟩

/-- C6: every `QueryMethod` produced by `FindQueryMethods` has
`0 ≤ Param < ArgCount`: its recorded parameter index is a valid index into
the matched signature's parameter list. -/
theorem claim_C6_param_bound (pkg : sqlPackage) (scope : List ScopeObj)
    (qm : QueryMethod) (h : qm ∈ FindQueryMethods pkg scope) :
    qm.Param < qm.ArgCount := by
  obtain ⟨o, _, _, _, mo, _, _, num, hfq, rfl⟩ := (mem_FindQueryMethods pkg scope qm).mp h
  obtain ⟨⟨p, hget, _⟩, _⟩ := (FuncHasQuery_some_iff pkg mo.params num).mp hfq
  show num < mo.params.length
  by_contra hlt
  push_neg at hlt
  rw [List.getElem?_eq_none hlt] at hget
  cases hget

/-- Witness for C6: the resolved sink of the C5 witness has `Param = 1` below
`ArgCount = 2`. -/
theorem claim_C6_witness :
    (⟨"DB", "Query", 7, 2, 1⟩ : QueryMethod).Param <
      (⟨"DB", "Query", 7, 2, 1⟩ : QueryMethod).ArgCount :=
  claim_C6_param_bound ⟨"database/sql", ["query"], false⟩
    [⟨"DB", true, true, [⟨"Query", true, ["ctx", "query"], 7⟩]⟩]
    ⟨"DB", "Query", 7, 2, 1⟩ (by decide)
